import Mathlib

/-!
Verification of the MVCC key-value store engine (`store.py`).

The embedding translates `Store` and its methods into pure Lean functions.
Conventions:
* Python lists used as stacks (`_tx_stack`, `_snapshots`) append/pop at the
  END; we model them as Lean lists whose HEAD is the top (innermost frame),
  so Python's `reversed(stack)` (innermost → outermost) is our list order and
  Python's forward iteration (outermost → innermost) is our `List.reverse`.
* Version chains keep Python's order: oldest first, `append` at the end,
  `chain[-1]` is `List.getLast?`.
* Python `dict`s become association lists with unique keys in insertion
  order: assignment is `updateAssoc` (replace in place or append), deletion
  is `eraseAssoc`, membership/lookup is `lookupAssoc`.
* The `_DELETED` sentinel becomes `Payload.tomb`; Python `None` used as the
  "absent" marker becomes `Option.none`.
* The SQLite mirror is modelled as a flat association list of rows;
  `flush_to_sqlite`'s `REPLACE INTO` is an upsert and `DELETE` removes the
  row. Partial accesses that the engine's invariants make safe
  (`snapshots[-1]`, `chain[-1]`) are totalised with `headD 0` / `getLast?`.
-/

namespace KVStore

/-- Payload stored in a version chain or an overlay: a real value or the
`_DELETED` tombstone sentinel. -/
inductive Payload (V : Type) where
  | val : V → Payload V
  | tomb : Payload V
deriving DecidableEq, Repr

variable {K V A : Type} [DecidableEq K]

/-- Python `d.get(k)` / `k in d` on an insertion-ordered dict. -/
def lookupAssoc : List (K × A) → K → Option A
  | [], _ => none
  | (k', a) :: t, k => if k' = k then some a else lookupAssoc t k

/-- Python `d[k] = a`: replace in place if present, else append. -/
def updateAssoc : List (K × A) → K → A → List (K × A)
  | [], k, a => [(k, a)]
  | (k', a') :: t, k, a =>
      if k' = k then (k, a) :: t else (k', a') :: updateAssoc t k a

/-- Python `d.pop(k, None)`: drop the binding for `k` if present. -/
def eraseAssoc : List (K × A) → K → List (K × A)
  | [], _ => []
  | (k', a') :: t, k => if k' = k then t else (k', a') :: eraseAssoc t k

/-- Python `self._versions.setdefault(key, []).append(e)`. -/
def appendVersion : List (K × List (Nat × Payload V)) → K → Nat × Payload V →
    List (K × List (Nat × Payload V))
  | [], k, e => [(k, [e])]
  | (k', c) :: t, k, e =>
      if k' = k then (k', c ++ [e]) :: t else (k', c) :: appendVersion t k e

/-- `Store._latest_committed`: the last entry of the chain, or absent
(also absent for an empty chain, which Python treats as falsy). -/
def latestCommitted (vs : List (K × List (Nat × Payload V))) (k : K) :
    Option (Nat × Payload V) :=
  match lookupAssoc vs k with
  | none => none
  | some chain => chain.getLast?

/-- The reverse scan inside `Store._committed_at_or_before`: first entry (in
the given order) with timestamp `≤ ts`; tombstone resolves to absent. -/
def firstLE : List (Nat × Payload V) → Nat → Option V
  | [], _ => none
  | (vts, p) :: rest, ts =>
      if vts ≤ ts then
        match p with
        | .tomb => none
        | .val v => some v
      else firstLE rest ts

/-- `Store._committed_at_or_before key ts`. -/
def committedAtOrBefore (vs : List (K × List (Nat × Payload V))) (k : K)
    (ts : Nat) : Option V :=
  match lookupAssoc vs k with
  | none => none
  | some chain => firstLE chain.reverse ts

/-- `Store._merge_overlay_into`: `for k, v in src.items(): dst[k] = v`. -/
def mergeOverlayInto (src dst : List (K × Payload V)) : List (K × Payload V) :=
  src.foldl (fun d kv => updateAssoc d kv.1 kv.2) dst

/-- The in-memory state of `Store`: version chains, transaction overlay
stack, snapshot-timestamp stack, logical clock. -/
structure Store (K V : Type) where
  versions : List (K × List (Nat × Payload V))
  tx_stack : List (List (K × Payload V))
  snapshots : List Nat
  clock : Nat
deriving DecidableEq, Repr

/-- Errors raised by `commit`/`rollback`. -/
inductive KVError (K : Type) where
  | noActiveTransaction : KVError K
  | writeConflict : K → KVError K
deriving DecidableEq, Repr

namespace Store

/-- The committed-write idiom `self._clock += 1;
self._versions.setdefault(k, []).append((self._clock, p))` shared by
`__init__`, `set`, `delete` and the outer-commit loop. -/
def appendOne (s : Store K V) (k : K) (p : Payload V) : Store K V :=
  { s with
    clock := s.clock + 1
    versions := appendVersion s.versions k (s.clock + 1, p) }

/-- `Store.__init__`: load mirror rows in enumeration order, then the seed
dict, each advancing the clock by one and appending a singleton entry. -/
def load (rows seed : List (K × V)) : Store K V :=
  let s0 : Store K V := ⟨[], [], [], 0⟩
  let s1 := rows.foldl (fun st kv => appendOne st kv.1 (.val kv.2)) s0
  seed.foldl (fun st kv => appendOne st kv.1 (.val kv.2)) s1

/-- `Store.set`. -/
def set (s : Store K V) (k : K) (v : V) : Store K V :=
  match s.tx_stack with
  | top :: rest => { s with tx_stack := updateAssoc top k (.val v) :: rest }
  | [] => appendOne s k (.val v)

/-- `Store.delete`. -/
def del (s : Store K V) (k : K) : Store K V :=
  match s.tx_stack with
  | top :: rest => { s with tx_stack := updateAssoc top k .tomb :: rest }
  | [] => appendOne s k .tomb

/-- The overlay scan in `Store.get`: first overlay (innermost first)
containing the key. -/
def overlayFind : List (List (K × Payload V)) → K → Option (Payload V)
  | [], _ => none
  | ov :: rest, k =>
      match lookupAssoc ov k with
      | some p => some p
      | none => overlayFind rest k

/-- `Store.get key default`. -/
def get (s : Store K V) (k : K) (d : Option V) : Option V :=
  match overlayFind s.tx_stack k with
  | some .tomb => d
  | some (.val v) => some v
  | none =>
      match s.tx_stack with
      | _ :: _ =>
          match committedAtOrBefore s.versions k (s.snapshots.headD 0) with
          | none => d
          | some v => some v
      | [] =>
          match latestCommitted s.versions k with
          | none => d
          | some (_, .tomb) => d
          | some (_, .val v) => some v

/-- `Store.begin`. -/
def begin (s : Store K V) : Store K V :=
  { s with tx_stack := [] :: s.tx_stack, snapshots := s.clock :: s.snapshots }

/-- The conflict-check loop of `Store.commit`: the first key of the overlay
whose latest committed timestamp is strictly above the snapshot. -/
def findConflict (vs : List (K × List (Nat × Payload V)))
    (top : List (K × Payload V)) (snap : Nat) : Option K :=
  match top with
  | [] => none
  | (k, _) :: rest =>
      match latestCommitted vs k with
      | some (lts, _) => if snap < lts then some k else findConflict vs rest snap
      | none => findConflict vs rest snap

/-- The append loop of an outermost `Store.commit`: each overlay entry is
appended to its chain, advancing the clock once per entry. -/
def appendAll (s : Store K V) (top : List (K × Payload V)) : Store K V :=
  top.foldl (fun st kv => appendOne st kv.1 kv.2) s

/-- `Store.commit`. Returns the raised error (if any) together with the
state the Python object is left in — on `WriteConflict` the frame has
already been popped. -/
def commit (s : Store K V) : Option (KVError K) × Store K V :=
  match s.tx_stack with
  | [] => (some .noActiveTransaction, s)
  | top :: rest =>
      let snap := s.snapshots.headD 0
      let s1 : Store K V := { s with tx_stack := rest, snapshots := s.snapshots.tail }
      match rest with
      | parent :: rest' =>
          (none, { s1 with tx_stack := mergeOverlayInto top parent :: rest' })
      | [] =>
          match findConflict s1.versions top snap with
          | some k => (some (.writeConflict k), s1)
          | none => (none, appendAll s1 top)

/-- `Store.rollback`. -/
def rollback (s : Store K V) : Option (KVError K) × Store K V :=
  match s.tx_stack with
  | [] => (some .noActiveTransaction, s)
  | _ :: rest => (none, { s with tx_stack := rest, snapshots := s.snapshots.tail })

/-- `Store.in_transaction`. -/
def in_transaction (s : Store K V) : Bool :=
  !s.tx_stack.isEmpty

/-- `Store.snapshot`. -/
def snapshot (s : Store K V) : List (K × V) :=
  let base : List (K × V) :=
    match s.tx_stack with
    | _ :: _ =>
        s.versions.foldl
          (fun r kc =>
            match committedAtOrBefore s.versions kc.1 (s.snapshots.headD 0) with
            | some v => updateAssoc r kc.1 v
            | none => r) []
    | [] =>
        s.versions.foldl
          (fun r kc =>
            match kc.2.getLast? with
            | some (_, .val v) => updateAssoc r kc.1 v
            | _ => r) []
  s.tx_stack.reverse.foldl
    (fun r ov =>
      ov.foldl
        (fun r kv =>
          match kv.2 with
          | .tomb => eraseAssoc r kv.1
          | .val v => updateAssoc r kv.1 v) r) base

/-- `Store.flush_to_sqlite`, with the mirror's `kv` table modelled as a flat
row list: tombstoned keys are deleted, others upserted. -/
def flush (s : Store K V) (m : List (K × V)) : List (K × V) :=
  s.versions.foldl
    (fun m kc =>
      match kc.2.getLast? with
      | some (_, .tomb) => eraseAssoc m kc.1
      | some (_, .val v) => updateAssoc m kc.1 v
      | none => m) m

end Store

/-- One engine operation, for reachability over operation sequences. -/
inductive Op (K V : Type) where
  | set : K → V → Op K V
  | get : K → Option V → Op K V
  | del : K → Op K V
  | begin : Op K V
  | commit : Op K V
  | rollback : Op K V
  | snapshot : Op K V
deriving DecidableEq, Repr

/-- The state transition of one operation (`get`/`snapshot` are read-only;
`commit`/`rollback` leave the state their Python method leaves behind,
whether or not they raise). -/
def runOp (s : Store K V) : Op K V → Store K V
  | .set k v => s.set k v
  | .get _ _ => s
  | .del k => s.del k
  | .begin => s.begin
  | .commit => (s.commit).2
  | .rollback => (s.rollback).2
  | .snapshot => s

/-- Run a sequence of operations. -/
def runOps (s : Store K V) (ops : List (Op K V)) : Store K V :=
  ops.foldl runOp s

/-- States reachable from construction (mirror rows, then seed) by engine
operations. -/
def Reachable (t : Store K V) : Prop :=
  ∃ rows seed : List (K × V), ∃ ops : List (Op K V),
    t = runOps (Store.load rows seed) ops

/-! ### Specification-side definitions

These re-state, in the spec's own phrasing and with library combinators,
the resolution rules the claims describe; the theorems compare them with
the implementation functions above. -/

/-- Spec phrasing of chain resolution at a bound: the payload of the newest
entry with timestamp `≤ ts` (the chain is oldest-first, so newest-first is
its reverse); a tombstone there, or no entry within the bound, yields the
default. -/
def resolveChainAt (chain : List (Nat × Payload V)) (ts : Nat) (d : Option V) :
    Option V :=
  match chain.reverse.find? (fun e => e.1 ≤ ts) with
  | some (_, .val v) => some v
  | _ => d

/-- Spec phrasing of `get` (claim C3): first overlay hit innermost to
outermost; otherwise the committed chain under the innermost snapshot when
inside a transaction, or the last chain entry when outside. -/
def getSpec (s : Store K V) (k : K) (d : Option V) : Option V :=
  match s.tx_stack.findSome? (fun ov => lookupAssoc ov k) with
  | some (.val v) => some v
  | some .tomb => d
  | none =>
      match s.tx_stack with
      | [] =>
          match (lookupAssoc s.versions k).bind List.getLast? with
          | some (_, .val v) => some v
          | _ => d
      | _ :: _ =>
          resolveChainAt ((lookupAssoc s.versions k).getD []) (s.snapshots.headD 0) d

/-- Spec phrasing of the committed-state projection of `snapshot` (claim
C7): inside a transaction, every key whose chain resolves to a
non-tombstone under the innermost snapshot; outside, every key whose last
chain entry is a non-tombstone. -/
def committedProjection (s : Store K V) : List (K × V) :=
  match s.tx_stack with
  | _ :: _ =>
      s.versions.filterMap
        (fun kc =>
          (resolveChainAt kc.2 (s.snapshots.headD 0) none).map (fun v => (kc.1, v)))
  | [] =>
      s.versions.filterMap
        (fun kc =>
          match kc.2.getLast? with
          | some (_, .val v) => some (kc.1, v)
          | _ => none)

/-- Applying one transaction frame's overlay to a result map: non-tombstone
entries overwrite, tombstones remove. -/
def applyOverlay (r : List (K × V)) (ov : List (K × Payload V)) : List (K × V) :=
  ov.foldl
    (fun r kv =>
      match kv.2 with
      | .tomb => eraseAssoc r kv.1
      | .val v => updateAssoc r kv.1 v) r

/-- Spec phrasing of `snapshot` (claim C7): committed projection, then every
frame overlaid from outermost to innermost. -/
def snapshotSpec (s : Store K V) : List (K × V) :=
  s.tx_stack.reverse.foldl applyOverlay (committedProjection s)

/-- Transaction-depth effect of one operation. -/
def delta : Op K V → Int
  | .begin => 1
  | .commit => -1
  | .rollback => -1
  | _ => 0

/-- Net transaction-depth effect of an operation sequence. -/
def sumDelta (ops : List (Op K V)) : Int :=
  (ops.map delta).sum

/-- A sequence of operations whose `begin`/`commit`/`rollback` are balanced:
no prefix closes more transactions than it opened, and the whole sequence
closes exactly as many as it opens (claim C6). -/
def Balanced (ops : List (Op K V)) : Prop :=
  sumDelta ops = 0 ∧ ∀ p q : List (Op K V), ops = p ++ q → 0 ≤ sumDelta p

/-- Chain invariants: along every version chain the timestamps strictly
increase and are bounded by the clock. -/
def ChainsOk (s : Store K V) : Prop :=
  ∀ kc ∈ s.versions,
    List.Chain' (fun a b : Nat × Payload V => a.1 < b.1) kc.2 ∧
    ∀ e ∈ kc.2, e.1 ≤ s.clock

/-- The engine invariant: chain invariants, every stacked snapshot
timestamp equals the current clock (the clock never advances while a
transaction is open), and the two stacks have equal depth. -/
def Inv (s : Store K V) : Prop :=
  ChainsOk s ∧ (∀ x ∈ s.snapshots, x = s.clock) ∧
    s.snapshots.length = s.tx_stack.length

/-- `t` extends `s` by exactly `n` transaction frames, with identical
committed state (used for claim C6). -/
def Above (s t : Store K V) (n : Nat) : Prop :=
  t.versions = s.versions ∧ t.clock = s.clock ∧
  ∃ ext : List (List (K × Payload V)), ∃ sext : List Nat,
    ext.length = n ∧ sext.length = n ∧
    t.tx_stack = ext ++ s.tx_stack ∧ t.snapshots = sext ++ s.snapshots

/-- The value a key's latest committed entry contributes outside a
transaction: its payload if it is a non-tombstone, absent otherwise (used
for claim C10). -/
def latestValue (vs : List (K × List (Nat × Payload V))) (k : K) : Option V :=
  match latestCommitted vs k with
  | some (_, .val v) => some v
  | _ => none

/-! ### Association-list lemmas -/

theorem lookupAssoc_updateAssoc_self (l : List (K × A)) (k : K) (a : A) :
    lookupAssoc (updateAssoc l k a) k = some a := by
  induction l with
  | nil => simp [updateAssoc, lookupAssoc]
  | cons hd t ih =>
      obtain ⟨k', a'⟩ := hd
      by_cases hk : k' = k <;> simp [updateAssoc, lookupAssoc, hk, ih]

theorem lookupAssoc_updateAssoc_ne (l : List (K × A)) {k k' : K} (a : A)
    (h : k' ≠ k) : lookupAssoc (updateAssoc l k a) k' = lookupAssoc l k' := by
  induction l with
  | nil => simp [updateAssoc, lookupAssoc, Ne.symm h]
  | cons hd t ih =>
      obtain ⟨k₀, a₀⟩ := hd
      by_cases hk : k₀ = k
      · subst hk
        simp [updateAssoc, lookupAssoc, Ne.symm h]
      · simp [updateAssoc, lookupAssoc, hk, ih]

theorem lookupAssoc_appendVersion_self (vs : List (K × List (Nat × Payload V)))
    (k : K) (e : Nat × Payload V) :
    lookupAssoc (appendVersion vs k e) k =
      some ((lookupAssoc vs k).getD [] ++ [e]) := by
  induction vs with
  | nil => simp [appendVersion, lookupAssoc]
  | cons hd t ih =>
      obtain ⟨k', c⟩ := hd
      by_cases hk : k' = k <;> simp [appendVersion, lookupAssoc, hk, ih]

theorem lookupAssoc_appendVersion_ne (vs : List (K × List (Nat × Payload V)))
    {k k' : K} (e : Nat × Payload V) (h : k' ≠ k) :
    lookupAssoc (appendVersion vs k e) k' = lookupAssoc vs k' := by
  induction vs with
  | nil => simp [appendVersion, lookupAssoc, Ne.symm h]
  | cons hd t ih =>
      obtain ⟨k₀, c⟩ := hd
      by_cases hk : k₀ = k
      · subst hk
        simp [appendVersion, lookupAssoc, Ne.symm h]
      · simp [appendVersion, lookupAssoc, hk, ih]

theorem mem_of_lookupAssoc {l : List (K × A)} {k : K} {a : A}
    (h : lookupAssoc l k = some a) : (k, a) ∈ l := by
  induction l with
  | nil => simp [lookupAssoc] at h
  | cons hd t ih =>
      obtain ⟨k', a'⟩ := hd
      by_cases hk : k' = k
      · subst hk
        simp [lookupAssoc] at h
        simp [h]
      · simp [lookupAssoc, hk] at h
        exact List.mem_cons_of_mem _ (ih h)

/-! ### `get` resolution (claim C3) -/

theorem overlayFind_eq_findSome? (l : List (List (K × Payload V))) (k : K) :
    Store.overlayFind l k = l.findSome? (fun ov => lookupAssoc ov k) := by
  induction l with
  | nil => rfl
  | cons ov rest ih =>
      simp only [Store.overlayFind, List.findSome?_cons]
      cases lookupAssoc ov k <;> simp [ih]

theorem firstLE_eq_find? (l : List (Nat × Payload V)) (ts : Nat) :
    firstLE l ts =
      (match l.find? (fun e => e.1 ≤ ts) with
       | some (_, .val v) => some v
       | _ => none) := by
  induction l with
  | nil => rfl
  | cons e rest ih =>
      obtain ⟨vts, p⟩ := e
      by_cases h : vts ≤ ts
      · cases p <;> simp [firstLE, List.find?, h]
      · simpa [firstLE, List.find?, h] using ih

theorem committedAtOrBefore_eq_firstLE (vs : List (K × List (Nat × Payload V)))
    (k : K) (ts : Nat) :
    committedAtOrBefore vs k ts =
      firstLE ((lookupAssoc vs k).getD []).reverse ts := by
  unfold committedAtOrBefore
  cases lookupAssoc vs k <;> rfl

/-- C3: `get(k, d)` resolves in the order the spec states: first overlay hit
from innermost to outermost (tombstone → default); otherwise, inside a
transaction, the newest committed entry with timestamp at most the
innermost snapshot (tombstone or none → default); outside, the last chain
entry (tombstone or absent chain → default). -/
theorem claim_C3_get_resolution_order (s : Store K V) (k : K) (d : Option V) :
    s.get k d = getSpec s k d := by
  unfold Store.get getSpec
  rw [overlayFind_eq_findSome?]
  cases hfs : s.tx_stack.findSome? (fun ov => lookupAssoc ov k) with
  | some p => cases p <;> rfl
  | none =>
      cases hstk : s.tx_stack with
      | nil =>
          unfold latestCommitted
          cases hlk : lookupAssoc s.versions k with
          | none => rfl
          | some chain =>
              cases hlast : chain.getLast? with
              | none => simp [hlast]
              | some e =>
                  obtain ⟨ets, p⟩ := e
                  cases p <;> simp [hlast]
      | cons top rest =>
          rw [committedAtOrBefore_eq_firstLE, firstLE_eq_find?]
          unfold resolveChainAt
          cases hf : ((lookupAssoc s.versions k).getD []).reverse.find?
              (fun e => e.1 ≤ s.snapshots.headD 0) with
          | none => rfl
          | some e => obtain ⟨ets, p⟩ := e; cases p <;> rfl

/-! ### Purity of `get` (claim C9) and the empty-stack errors (claim C8) -/

/-- C9: `get` leaves every component of the engine state (version chains,
clock, transaction stack, snapshots) unchanged, so two consecutive
`get(k, d)` calls return equal results. -/
theorem claim_C9_get_pure (s : Store K V) (k : K) (d : Option V) :
    runOp s (Op.get k d) = s ∧
    (runOp s (Op.get k d)).versions = s.versions ∧
    (runOp s (Op.get k d)).clock = s.clock ∧
    (runOp s (Op.get k d)).tx_stack = s.tx_stack ∧
    (runOp s (Op.get k d)).snapshots = s.snapshots ∧
    Store.get (runOp s (Op.get k d)) k d = Store.get s k d :=
  ⟨rfl, rfl, rfl, rfl, rfl, rfl⟩

/-- C8: `commit` and `rollback` raise `NoActiveTransaction` exactly when the
transaction stack is empty, and in that case leave the whole engine state
unchanged. -/
theorem claim_C8_no_active_transaction (s : Store K V) :
    ((Store.commit s).1 = some KVError.noActiveTransaction ↔ s.tx_stack = []) ∧
    ((Store.rollback s).1 = some KVError.noActiveTransaction ↔ s.tx_stack = []) ∧
    (s.tx_stack = [] → (Store.commit s).2 = s ∧ (Store.rollback s).2 = s) := by
  obtain ⟨vs, stk, snaps, c⟩ := s
  cases stk with
  | nil => simp [Store.commit, Store.rollback]
  | cons top rest =>
      cases rest with
      | nil =>
          cases hfc : Store.findConflict vs top (snaps.head?.getD 0) with
          | none => simp [Store.commit, Store.rollback, hfc]
          | some k => simp [Store.commit, Store.rollback, hfc]
      | cons parent rest' => simp [Store.commit, Store.rollback]

/-- Witness for C8 at the empty store. -/
theorem claim_C8_witness :
    ((Store.load ([] : List (String × Nat)) []).tx_stack = []) ∧
    ((Store.commit (Store.load ([] : List (String × Nat)) [])).2 =
        Store.load ([] : List (String × Nat)) [] ∧
      (Store.rollback (Store.load ([] : List (String × Nat)) [])).2 =
        Store.load ([] : List (String × Nat)) []) :=
  ⟨rfl, (claim_C8_no_active_transaction _).2.2 rfl⟩

/-! ### The S6 write-conflict scenario (claim C1)

The spec's scenario S6 expects `begin(); set("k","new"); set("k","tx");
commit()` — the first `set` issued by a second logical actor "outside the
transaction" — to raise `WriteConflict("k")`. On the code, `set` on an
engine whose transaction stack is non-empty writes into the innermost
overlay and does not advance the clock, so no committed version newer than
the snapshot can exist and the commit succeeds. -/

/-- C1: evaluating scenario S6 on the code: the clock never advances past
the snapshot, the commit raises nothing, and the chain ends with the
transaction's own write. -/
theorem claim_C1_s6_commit_succeeds :
    (Store.commit (runOps (Store.load ([] : List (String × String)) [])
        [Op.begin, Op.set "k" "new", Op.set "k" "tx"])).1 = none ∧
    (Store.commit (runOps (Store.load ([] : List (String × String)) [])
        [Op.begin, Op.set "k" "new", Op.set "k" "tx"])).2.versions =
      [("k", [(1, Payload.val "tx")])] ∧
    (runOps (Store.load ([] : List (String × String)) [])
        [Op.begin, Op.set "k" "new", Op.set "k" "tx"]).clock =
      (Store.load ([] : List (String × String)) []).clock := by
  refine ⟨by decide, by decide, by decide⟩

/-! ### Engine invariants (claims C5, C2) -/

theorem mem_appendVersion {vs : List (K × List (Nat × Payload V))} {k : K}
    {e : Nat × Payload V} {kc : K × List (Nat × Payload V)}
    (h : kc ∈ appendVersion vs k e) :
    kc ∈ vs ∨ kc.2 = [e] ∨ ∃ c, (kc.1, c) ∈ vs ∧ kc.2 = c ++ [e] := by
  induction vs with
  | nil =>
      simp [appendVersion] at h
      subst h
      exact Or.inr (Or.inl rfl)
  | cons hd t ih =>
      obtain ⟨k', c⟩ := hd
      by_cases hk : k' = k
      · subst hk
        simp [appendVersion] at h
        rcases h with h | h
        · subst h
          exact Or.inr (Or.inr ⟨c, by simp, rfl⟩)
        · exact Or.inl (List.mem_cons_of_mem _ h)
      · simp [appendVersion, hk] at h
        rcases h with h | h
        · subst h
          exact Or.inl (List.mem_cons_self _ _)
        · rcases ih h with h' | h' | ⟨c', hc', he⟩
          · exact Or.inl (List.mem_cons_of_mem _ h')
          · exact Or.inr (Or.inl h')
          · exact Or.inr (Or.inr ⟨c', List.mem_cons_of_mem _ hc', he⟩)

theorem chainsOk_appendOne {s : Store K V} (h : ChainsOk s) (k : K)
    (p : Payload V) : ChainsOk (Store.appendOne s k p) := by
  intro kc hkc
  rcases mem_appendVersion hkc with hm | hm | ⟨c, hc, he⟩
  · obtain ⟨h1, h2⟩ := h kc hm
    exact ⟨h1, fun e he => Nat.le_succ_of_le (h2 e he)⟩
  · refine ⟨?_, ?_⟩
    · rw [hm]; exact List.chain'_singleton _
    · intro e he
      rw [hm] at he
      simp at he
      simp [he, Store.appendOne]
  · obtain ⟨h1, h2⟩ := h (kc.1, c) hc
    constructor
    · rw [he]
      refine List.chain'_append.2 ⟨h1, List.chain'_singleton _, ?_⟩
      intro x hx y hy
      simp at hy
      have hb := h2 x (List.mem_of_mem_getLast? hx)
      subst hy
      exact Nat.lt_succ_of_le hb
    · intro e he'
      rw [he] at he'
      rcases List.mem_append.1 he' with h' | h'
      · exact Nat.le_succ_of_le (h2 e h')
      · simp at h'
        simp [h', Store.appendOne]

theorem appendOne_tx_stack (s : Store K V) (k : K) (p : Payload V) :
    (Store.appendOne s k p).tx_stack = s.tx_stack := rfl

theorem appendOne_snapshots (s : Store K V) (k : K) (p : Payload V) :
    (Store.appendOne s k p).snapshots = s.snapshots := rfl

theorem appendAll_tx_stack (top : List (K × Payload V)) (s : Store K V) :
    (Store.appendAll s top).tx_stack = s.tx_stack := by
  induction top generalizing s with
  | nil => rfl
  | cons kv t ih => simpa [Store.appendAll] using ih (Store.appendOne s kv.1 kv.2)

theorem appendAll_snapshots (top : List (K × Payload V)) (s : Store K V) :
    (Store.appendAll s top).snapshots = s.snapshots := by
  induction top generalizing s with
  | nil => rfl
  | cons kv t ih => simpa [Store.appendAll] using ih (Store.appendOne s kv.1 kv.2)

theorem appendAll_clock (top : List (K × Payload V)) (s : Store K V) :
    (Store.appendAll s top).clock = s.clock + top.length := by
  induction top generalizing s with
  | nil => rfl
  | cons kv t ih =>
      have := ih (Store.appendOne s kv.1 kv.2)
      simp [Store.appendAll] at this ⊢
      rw [this]
      simp [Store.appendOne]
      omega

theorem chainsOk_appendAll (top : List (K × Payload V)) (s : Store K V)
    (h : ChainsOk s) : ChainsOk (Store.appendAll s top) := by
  induction top generalizing s with
  | nil => exact h
  | cons kv t ih =>
      exact ih (Store.appendOne s kv.1 kv.2) (chainsOk_appendOne h kv.1 kv.2)

theorem load_eq_appendAll (rows seed : List (K × V)) :
    Store.load rows seed =
      Store.appendAll
        (Store.appendAll ⟨[], [], [], 0⟩
          (rows.map (fun kv => (kv.1, Payload.val kv.2))))
        (seed.map (fun kv => (kv.1, Payload.val kv.2))) := by
  simp [Store.load, Store.appendAll, List.foldl_map]

theorem inv_load (rows seed : List (K × V)) :
    Inv (Store.load (K := K) (V := V) rows seed) := by
  rw [load_eq_appendAll]
  refine ⟨?_, ?_, ?_⟩
  · refine chainsOk_appendAll _ _ (chainsOk_appendAll _ _ ?_)
    intro kc hkc
    simp at hkc
  · rw [appendAll_snapshots, appendAll_snapshots]
    intro x hx
    simp at hx
  · simp [appendAll_snapshots, appendAll_tx_stack]

theorem inv_runOp {s : Store K V} (h : Inv s) (op : Op K V) :
    Inv (runOp s op) := by
  obtain ⟨hchains, hsnap, hlen⟩ := h
  obtain ⟨vs, stk, snaps, c⟩ := s
  cases op with
  | get k d => exact ⟨hchains, hsnap, hlen⟩
  | snapshot => exact ⟨hchains, hsnap, hlen⟩
  | begin =>
      refine ⟨hchains, ?_, ?_⟩
      · intro x hx
        rcases List.mem_cons.1 hx with h' | h'
        · exact h'
        · exact hsnap x h'
      · simpa [runOp, Store.begin] using hlen
  | set k v =>
      cases stk with
      | cons top rest =>
          refine ⟨hchains, hsnap, ?_⟩
          simp only [runOp, Store.set, List.length_cons]
          simpa using hlen
      | nil =>
          have hs : snaps = [] := List.length_eq_zero.1 (by simpa using hlen)
          subst hs
          exact ⟨chainsOk_appendOne hchains k (.val v),
            fun x hx => absurd hx (List.not_mem_nil x), rfl⟩
  | del k =>
      cases stk with
      | cons top rest =>
          refine ⟨hchains, hsnap, ?_⟩
          simp only [runOp, Store.del, List.length_cons]
          simpa using hlen
      | nil =>
          have hs : snaps = [] := List.length_eq_zero.1 (by simpa using hlen)
          subst hs
          exact ⟨chainsOk_appendOne hchains k .tomb,
            fun x hx => absurd hx (List.not_mem_nil x), rfl⟩
  | rollback =>
      cases stk with
      | nil => exact ⟨hchains, hsnap, hlen⟩
      | cons top rest =>
          refine ⟨hchains, ?_, ?_⟩
          · intro x hx
            exact hsnap x (List.mem_of_mem_tail hx)
          · simp only [runOp, Store.rollback, List.length_tail]
            simp at hlen
            simp [hlen]
  | commit =>
      cases stk with
      | nil => exact ⟨hchains, hsnap, hlen⟩
      | cons top rest =>
          cases rest with
          | cons parent rest' =>
              refine ⟨hchains, ?_, ?_⟩
              · intro x hx
                exact hsnap x (List.mem_of_mem_tail hx)
              · simp only [runOp, Store.commit, List.length_tail,
                  List.length_cons]
                simp at hlen
                simp [hlen]
          | nil =>
              have hs1 : snaps.length = 1 := by simpa using hlen
              obtain ⟨x, hx⟩ := List.length_eq_one.1 hs1
              subst hx
              simp only [runOp, Store.commit]
              cases hfc : Store.findConflict vs top (([x] : List Nat).headD 0) with
              | some k => exact ⟨hchains, by simp, by simp⟩
              | none =>
                  refine ⟨chainsOk_appendAll _ _ hchains, ?_, ?_⟩
                  · rw [appendAll_snapshots]
                    intro y hy
                    simp at hy
                  · simp [appendAll_snapshots, appendAll_tx_stack]

theorem inv_runOps {s : Store K V} (h : Inv s) (ops : List (Op K V)) :
    Inv (runOps s ops) := by
  induction ops generalizing s with
  | nil => exact h
  | cons op t ih => exact ih (inv_runOp h op)

theorem inv_reachable {t : Store K V} (h : Reachable t) : Inv t := by
  obtain ⟨rows, seed, ops, rfl⟩ := h
  exact inv_runOps (inv_load rows seed) ops

theorem clock_mono (s : Store K V) (op : Op K V) :
    s.clock ≤ (runOp s op).clock := by
  obtain ⟨vs, stk, snaps, c⟩ := s
  cases op with
  | get k d => exact le_refl _
  | snapshot => exact le_refl _
  | begin => exact le_refl _
  | set k v => cases stk <;> simp [runOp, Store.set, Store.appendOne]
  | del k => cases stk <;> simp [runOp, Store.del, Store.appendOne]
  | rollback => cases stk <;> simp [runOp, Store.rollback]
  | commit =>
      cases stk with
      | nil => exact le_refl _
      | cons top rest =>
          cases rest with
          | cons parent rest' => exact le_refl _
          | nil =>
              simp only [runOp, Store.commit]
              cases Store.findConflict vs top (snaps.headD 0) with
              | some k => exact le_refl _
              | none => simp [appendAll_clock]

/-- C5: in every reachable engine state (including construction with mirror
load and seed data), every version chain's timestamps are strictly
increasing, and no single operation ever decreases the clock. -/
theorem claim_C5_invariants (t : Store K V) (h : Reachable t) :
    (∀ kc ∈ t.versions,
      List.Chain' (fun a b : Nat × Payload V => a.1 < b.1) kc.2) ∧
    (∀ op : Op K V, t.clock ≤ (runOp t op).clock) :=
  ⟨fun kc hkc => ((inv_reachable h).1 kc hkc).1, fun op => clock_mono t op⟩

/-- Witness for C5 at a concrete reachable state. -/
theorem claim_C5_invariants_witness :
    Reachable (runOps (Store.load [("x", 5)] [("y", 6)])
      [Op.set "a" (1 : Nat), Op.del "x", Op.begin, Op.set "a" 2]) ∧
    (∀ kc ∈ (runOps (Store.load [("x", 5)] [("y", 6)])
        [Op.set "a" (1 : Nat), Op.del "x", Op.begin, Op.set "a" 2]).versions,
      List.Chain' (fun a b : Nat × Payload Nat => a.1 < b.1) kc.2) :=
  ⟨⟨_, _, _, rfl⟩,
    (claim_C5_invariants _ ⟨[("x", 5)], [("y", 6)],
      [Op.set "a" (1 : Nat), Op.del "x", Op.begin, Op.set "a" 2], rfl⟩).1⟩

/-! ### Unreachability of `WriteConflict` (claim C2) -/

theorem latestCommitted_le {vs : List (K × List (Nat × Payload V))} {n : Nat}
    (h : ∀ kc ∈ vs, ∀ e ∈ kc.2, e.1 ≤ n) {k : K} {lts : Nat} {p : Payload V}
    (hl : latestCommitted vs k = some (lts, p)) : lts ≤ n := by
  unfold latestCommitted at hl
  cases hlk : lookupAssoc vs k with
  | none => rw [hlk] at hl; exact absurd hl (by simp)
  | some chain =>
      rw [hlk] at hl
      exact h _ (mem_of_lookupAssoc hlk) _ (List.mem_of_mem_getLast? hl)

theorem findConflict_eq_none {vs : List (K × List (Nat × Payload V))}
    {top : List (K × Payload V)} {snap : Nat}
    (h : ∀ k lts p, latestCommitted vs k = some (lts, p) → lts ≤ snap) :
    Store.findConflict vs top snap = none := by
  induction top with
  | nil => rfl
  | cons kv rest ih =>
      obtain ⟨k, p⟩ := kv
      simp only [Store.findConflict]
      cases hl : latestCommitted vs k with
      | none => exact ih
      | some e =>
          obtain ⟨lts, q⟩ := e
          have hle := h k lts q hl
          simp [Nat.not_lt.2 hle]
          exact ih

/-- C2: from any state reachable by operations on a single store, `commit`
never raises `WriteConflict`: version chains only grow while no transaction
is open, so at an outermost commit every latest committed timestamp is at
most the popped snapshot timestamp. -/
theorem claim_C2_write_conflict_unreachable (t : Store K V) (h : Reachable t)
    (k : K) : (Store.commit t).1 ≠ some (KVError.writeConflict k) := by
  have hinv := inv_reachable h
  obtain ⟨hchains, hsnap, hlen⟩ := hinv
  obtain ⟨vs, stk, snaps, c⟩ := t
  cases stk with
  | nil => simp [Store.commit]
  | cons top rest =>
      cases rest with
      | cons parent rest' => simp [Store.commit]
      | nil =>
          have hs1 : snaps.length = 1 := by simpa using hlen
          obtain ⟨x, hx⟩ := List.length_eq_one.1 hs1
          subst hx
          have hxc : x = c := hsnap x (by simp)
          have hnone : Store.findConflict vs top x = none := by
            refine findConflict_eq_none ?_
            intro k' lts p hl
            rw [hxc]
            exact latestCommitted_le (fun kc hkc => (hchains kc hkc).2) hl
          simp [Store.commit, hnone]

/-- Witness for C2 at a concrete reachable state. -/
theorem claim_C2_witness :
    Reachable (runOps (Store.load ([] : List (String × String)) [])
      [Op.begin, Op.set "k" "new", Op.set "k" "tx"]) ∧
    (Store.commit (runOps (Store.load ([] : List (String × String)) [])
      [Op.begin, Op.set "k" "new", Op.set "k" "tx"])).1 ≠
      some (KVError.writeConflict "k") :=
  ⟨⟨_, _, _, rfl⟩,
    claim_C2_write_conflict_unreachable _
      ⟨[], [], [Op.begin, Op.set "k" "new", Op.set "k" "tx"], rfl⟩ "k"⟩

/-! ### Commit semantics (claim C4) -/

theorem lookupAssoc_mergeOverlayInto_not_mem {src : List (K × Payload V)}
    {k : K} (h : k ∉ src.map Prod.fst) (dst : List (K × Payload V)) :
    lookupAssoc (mergeOverlayInto src dst) k = lookupAssoc dst k := by
  induction src generalizing dst with
  | nil => rfl
  | cons kv rest ih =>
      obtain ⟨a, b⟩ := kv
      have hne : k ≠ a := fun hh => h (by simp [hh])
      have hrest : k ∉ rest.map Prod.fst := fun hh => h (by simp [hh])
      have hme : mergeOverlayInto ((a, b) :: rest) dst =
          mergeOverlayInto rest (updateAssoc dst a b) := rfl
      rw [hme, ih hrest, lookupAssoc_updateAssoc_ne _ _ hne]

theorem lookupAssoc_mergeOverlayInto {src : List (K × Payload V)}
    (hnd : (src.map Prod.fst).Nodup) (dst : List (K × Payload V)) (k : K) :
    lookupAssoc (mergeOverlayInto src dst) k =
      (match lookupAssoc src k with
       | some p => some p
       | none => lookupAssoc dst k) := by
  induction src generalizing dst with
  | nil => rfl
  | cons kv rest ih =>
      obtain ⟨a, b⟩ := kv
      rw [List.map_cons, List.nodup_cons] at hnd
      obtain ⟨hni, hrest⟩ := hnd
      have hme : mergeOverlayInto ((a, b) :: rest) dst =
          mergeOverlayInto rest (updateAssoc dst a b) := rfl
      by_cases hk : a = k
      · subst hk
        rw [hme, lookupAssoc_mergeOverlayInto_not_mem hni,
          lookupAssoc_updateAssoc_self]
        simp [lookupAssoc]
      · rw [hme, ih hrest]
        have hlk : lookupAssoc ((a, b) :: rest) k = lookupAssoc rest k := by
          simp [lookupAssoc, hk]
        rw [hlk, lookupAssoc_updateAssoc_ne _ _ (Ne.symm hk)]

theorem lookupAssoc_appendAll_not_mem {top : List (K × Payload V)} {k : K}
    (h : k ∉ top.map Prod.fst) (s : Store K V) :
    lookupAssoc (Store.appendAll s top).versions k = lookupAssoc s.versions k := by
  induction top generalizing s with
  | nil => rfl
  | cons kv rest ih =>
      obtain ⟨a, b⟩ := kv
      have hne : k ≠ a := fun hh => h (by simp [hh])
      have hrest : k ∉ rest.map Prod.fst := fun hh => h (by simp [hh])
      have hme : Store.appendAll s ((a, b) :: rest) =
          Store.appendAll (Store.appendOne s a b) rest := rfl
      rw [hme, ih hrest]
      exact lookupAssoc_appendVersion_ne _ _ hne

theorem lookupAssoc_appendAll_idx {top : List (K × Payload V)}
    (hnd : (top.map Prod.fst).Nodup) (s : Store K V) (i : Nat)
    (hi : i < top.length) :
    lookupAssoc (Store.appendAll s top).versions (top.get ⟨i, hi⟩).1 =
      some ((lookupAssoc s.versions (top.get ⟨i, hi⟩).1).getD [] ++
        [(s.clock + i + 1, (top.get ⟨i, hi⟩).2)]) := by
  induction top generalizing s i with
  | nil => exact absurd hi (by simp)
  | cons kv rest ih =>
      obtain ⟨a, b⟩ := kv
      rw [List.map_cons, List.nodup_cons] at hnd
      obtain ⟨hni, hrest⟩ := hnd
      have hme : Store.appendAll s ((a, b) :: rest) =
          Store.appendAll (Store.appendOne s a b) rest := rfl
      cases i with
      | zero =>
          have hget : (((a, b) :: rest).get ⟨0, hi⟩) = (a, b) := rfl
          rw [hget, hme, lookupAssoc_appendAll_not_mem hni]
          simpa [Store.appendOne] using
            lookupAssoc_appendVersion_self s.versions a (s.clock + 1, b)
      | succ j =>
          have hj : j < rest.length := by simpa using hi
          have hget : (((a, b) :: rest).get ⟨j + 1, hi⟩) = rest.get ⟨j, hj⟩ := rfl
          rw [hget, hme, ih hrest (Store.appendOne s a b) j hj]
          have hkr : (rest.get ⟨j, hj⟩).1 ≠ a := by
            intro hh
            have hmem : (rest.get ⟨j, hj⟩).1 ∈ rest.map Prod.fst :=
              List.mem_map_of_mem Prod.fst (List.get_mem rest j hj)
            exact hni (hh ▸ hmem)
          rw [show (Store.appendOne s a b).versions =
            appendVersion s.versions a (s.clock + 1, b) from rfl]
          rw [lookupAssoc_appendVersion_ne _ _ hkr]
          rw [show (Store.appendOne s a b).clock = s.clock + 1 from rfl]
          have harith : s.clock + 1 + j + 1 = s.clock + (j + 1) + 1 := by omega
          rw [harith]

/-- C4: `commit` on a non-empty stack pops the top frame. Nested commit
(stack still non-empty): no error is possible and the popped overlay is
merged last-write-wins (values and tombstones alike) into the new innermost
overlay. Outermost commit with a passing conflict check: each overlay entry
is appended to its key's chain, the clock advances by exactly one per
entry, and the `i`-th entry receives the distinct strictly-increasing
timestamp `clock + i + 1`. -/
theorem claim_C4_commit_semantics (s : Store K V) (top : List (K × Payload V))
    (rest : List (List (K × Payload V))) (h : s.tx_stack = top :: rest) :
    (∀ parent rest', rest = parent :: rest' →
      Store.commit s =
        (none, { s with tx_stack := mergeOverlayInto top parent :: rest',
                        snapshots := s.snapshots.tail }) ∧
      ((top.map Prod.fst).Nodup → ∀ k,
        lookupAssoc (mergeOverlayInto top parent) k =
          (match lookupAssoc top k with
           | some p => some p
           | none => lookupAssoc parent k))) ∧
    (rest = [] →
      Store.findConflict s.versions top (s.snapshots.headD 0) = none →
      (Store.commit s).1 = none ∧
      (Store.commit s).2.clock = s.clock + top.length ∧
      (Store.commit s).2.tx_stack = [] ∧
      (Store.commit s).2.snapshots = s.snapshots.tail ∧
      ((top.map Prod.fst).Nodup → ∀ i (hi : i < top.length),
        lookupAssoc (Store.commit s).2.versions (top.get ⟨i, hi⟩).1 =
          some ((lookupAssoc s.versions (top.get ⟨i, hi⟩).1).getD [] ++
            [(s.clock + i + 1, (top.get ⟨i, hi⟩).2)]))) := by
  obtain ⟨vs, stk, snaps, c⟩ := s
  simp only at h
  subst h
  constructor
  · intro parent rest' hr
    subst hr
    exact ⟨rfl, fun hnd k => lookupAssoc_mergeOverlayInto hnd parent k⟩
  · intro hr hfc
    subst hr
    simp only at hfc
    simp only [Store.commit, hfc]
    refine ⟨by trivial, ?_, ?_, ?_, ?_⟩
    · simpa using appendAll_clock top _
    · simpa using appendAll_tx_stack top _
    · simpa using appendAll_snapshots top _
    · intro hnd i hi
      simpa using lookupAssoc_appendAll_idx hnd
        ({ versions := vs, tx_stack := [], snapshots := snaps.tail, clock := c }) i hi

/-- Witness for C4: one nested commit and one outermost commit, concrete. -/
theorem claim_C4_witness :
    ((Store.commit (runOps (Store.load ([] : List (String × Nat)) [])
        [Op.begin, Op.set "a" 1, Op.begin, Op.set "b" 2])).1 = none ∧
      lookupAssoc (mergeOverlayInto [("b", Payload.val (2 : Nat))]
        [("a", Payload.val (1 : Nat))]) "b" = some (Payload.val 2)) ∧
    ((Store.commit (runOps (Store.load ([] : List (String × Nat)) [])
        [Op.begin, Op.set "a" 1])).1 = none ∧
      (Store.commit (runOps (Store.load ([] : List (String × Nat)) [])
        [Op.begin, Op.set "a" 1])).2.clock = 1 ∧
      lookupAssoc (Store.commit (runOps (Store.load ([] : List (String × Nat)) [])
        [Op.begin, Op.set "a" 1])).2.versions "a" =
        some [(1, Payload.val 1)]) := by
  have hn := (claim_C4_commit_semantics
    (runOps (Store.load ([] : List (String × Nat)) [])
      [Op.begin, Op.set "a" 1, Op.begin, Op.set "b" 2])
    [("b", Payload.val 2)] [[("a", Payload.val 1)]] (by decide)).1
    [("a", Payload.val 1)] [] rfl
  have ho := (claim_C4_commit_semantics
    (runOps (Store.load ([] : List (String × Nat)) [])
      [Op.begin, Op.set "a" 1])
    [("a", Payload.val 1)] [] (by decide)).2 rfl (by decide)
  refine ⟨⟨?_, ?_⟩, ?_, ?_, ?_⟩
  · rw [hn.1]
  · rw [hn.2 (by decide) "b"]
    decide
  · exact ho.1
  · rw [ho.2.1]
    decide
  · have := ho.2.2.2.2 (by decide) 0 (by decide)
    rw [show ((([("a", Payload.val (1 : Nat))] : List (String × Payload Nat)).get
      ⟨0, by decide⟩)) = ("a", Payload.val 1) from rfl] at this
    rw [this]
    decide

/-! ### Rollback restores the pre-`begin` state (claim C6) -/

theorem sumDelta_nil : sumDelta ([] : List (Op K V)) = 0 := rfl

theorem sumDelta_cons (op : Op K V) (ops : List (Op K V)) :
    sumDelta (op :: ops) = delta op + sumDelta ops := by
  simp [sumDelta]

theorem above_step {s t : Store K V} {n : Nat} (h : Above s t n)
    (op : Op K V) (h0 : 1 ≤ (n : Int)) (h1 : 1 ≤ (n : Int) + delta op) :
    ∃ n' : Nat, ((n' : Int) = (n : Int) + delta op) ∧ Above s (runOp t op) n' := by
  obtain ⟨hv, hc, ext, sext, hel, hsl, hts, hsn⟩ := h
  obtain ⟨tv, tstk, tsn, tc⟩ := t
  simp only at hv hc hts hsn
  subst hv hc hts hsn
  cases op with
  | get k d =>
      exact ⟨n, by simp [delta], rfl, rfl, ext, sext, hel, hsl, rfl, rfl⟩
  | snapshot =>
      exact ⟨n, by simp [delta], rfl, rfl, ext, sext, hel, hsl, rfl, rfl⟩
  | begin =>
      refine ⟨n + 1, by simp [delta], rfl, rfl, [] :: ext, s.clock :: sext,
        ?_, ?_, rfl, rfl⟩
      · simpa using hel
      · simpa using hsl
  | set k v =>
      cases ext with
      | nil =>
          exfalso
          simp at hel
          omega
      | cons e ext' =>
          refine ⟨n, by simp [delta], rfl, rfl,
            updateAssoc e k (.val v) :: ext', sext, ?_, hsl, rfl, rfl⟩
          simpa using hel
  | del k =>
      cases ext with
      | nil =>
          exfalso
          simp at hel
          omega
      | cons e ext' =>
          refine ⟨n, by simp [delta], rfl, rfl,
            updateAssoc e k .tomb :: ext', sext, ?_, hsl, rfl, rfl⟩
          simpa using hel
  | rollback =>
      cases ext with
      | nil =>
          exfalso
          simp at hel
          omega
      | cons e ext' =>
          cases sext with
          | nil =>
              exfalso
              simp at hsl
              omega
          | cons x sext' =>
              refine ⟨n - 1, by simp [delta]; omega, rfl, rfl, ext', sext',
                ?_, ?_, rfl, rfl⟩
              · simp at hel
                omega
              · simp at hsl
                omega
  | commit =>
      simp only [delta] at h1
      cases ext with
      | nil =>
          exfalso
          simp at hel
          omega
      | cons e1 ext1 =>
          cases ext1 with
          | nil =>
              exfalso
              simp at hel
              omega
          | cons e2 ext'' =>
              cases sext with
              | nil =>
                  exfalso
                  simp at hsl
                  omega
              | cons x sext' =>
                  refine ⟨n - 1, by simp [delta]; omega, rfl, rfl,
                    mergeOverlayInto e1 e2 :: ext'', sext', ?_, ?_, rfl, rfl⟩
                  · simp at hel ⊢
                    omega
                  · simp at hsl ⊢
                    omega

theorem above_runOps (ops : List (Op K V)) (s : Store K V) :
    ∀ (t : Store K V) (n : Nat), Above s t n →
      (∀ p q, ops = p ++ q → 1 ≤ (n : Int) + sumDelta p) →
      ∃ m : Nat, ((m : Int) = (n : Int) + sumDelta ops) ∧
        Above s (runOps t ops) m := by
  induction ops with
  | nil =>
      intro t n h _
      exact ⟨n, by simp [sumDelta_nil], h⟩
  | cons op rest ih =>
      intro t n h hp
      have h0 : 1 ≤ (n : Int) := by
        simpa [sumDelta_nil] using hp [] (op :: rest) rfl
      have h1 : 1 ≤ (n : Int) + delta op := by
        simpa [sumDelta_cons, sumDelta_nil] using hp [op] rest rfl
      obtain ⟨n', hn', hstep⟩ := above_step h op h0 h1
      obtain ⟨m, hm, habove⟩ := ih (runOp t op) n' hstep (fun p q hpq => by
        have := hp (op :: p) q (by rw [hpq, List.cons_append])
        rw [sumDelta_cons] at this
        omega)
      refine ⟨m, ?_, habove⟩
      rw [sumDelta_cons]
      omega

theorem rollback_of_shape {s t : Store K V} {e : List (K × Payload V)} {x : Nat}
    (hv : t.versions = s.versions) (hc : t.clock = s.clock)
    (hts : t.tx_stack = e :: s.tx_stack) (hsn : t.snapshots = x :: s.snapshots) :
    (Store.rollback t).2 = s := by
  obtain ⟨tv, tstk, tsn, tc⟩ := t
  obtain ⟨sv, sstk, ssn, sc⟩ := s
  simp only at hv hc hts hsn
  subst hv hc hts hsn
  rfl

/-- C6: for any state `s`, `begin()` followed by a balanced sequence of
`set`/`get`/`delete` and nested `begin`/`commit`/`rollback` operations and a
final `rollback()` returns the engine to exactly `s`; every subsequent
`get` is as if `begin` had never been called. -/
theorem claim_C6_rollback_undoes (s : Store K V) (ops : List (Op K V))
    (h : Balanced ops) :
    (Store.rollback (runOps (Store.begin s) ops)).2 = s ∧
    (∀ k d, Store.get (Store.rollback (runOps (Store.begin s) ops)).2 k d =
      Store.get s k d) := by
  obtain ⟨hsum, hpre⟩ := h
  have h0 : Above s (Store.begin s) 1 :=
    ⟨rfl, rfl, [[]], [s.clock], rfl, rfl, rfl, rfl⟩
  obtain ⟨m, hm, habove⟩ := above_runOps ops s (Store.begin s) 1 h0
    (fun p q hpq => by
      have := hpre p q hpq
      omega)
  have hm1 : m = 1 := by
    rw [hsum] at hm
    omega
  subst hm1
  obtain ⟨hv, hc, ext, sext, hel, hsl, hts, hsn⟩ := habove
  obtain ⟨e, he⟩ := List.length_eq_one.1 hel
  obtain ⟨x, hx⟩ := List.length_eq_one.1 hsl
  subst he hx
  have heq : (Store.rollback (runOps (Store.begin s) ops)).2 = s :=
    rollback_of_shape hv hc (by simpa using hts) (by simpa using hsn)
  exact ⟨heq, fun k d => by rw [heq]⟩

/-- Witness for C6: `begin(); set("x",42); rollback()` on the empty store
restores it, and `get("x")` is absent afterwards. -/
theorem claim_C6_witness :
    Balanced ([Op.set "x" (42 : Nat)] : List (Op String Nat)) ∧
    (Store.rollback (runOps (Store.begin (Store.load ([] : List (String × Nat)) []))
      [Op.set "x" 42])).2 = Store.load ([] : List (String × Nat)) [] ∧
    Store.get (Store.rollback (runOps
      (Store.begin (Store.load ([] : List (String × Nat)) []))
      [Op.set "x" 42])).2 "x" none = none := by
  have hb : Balanced ([Op.set "x" (42 : Nat)] : List (Op String Nat)) := by
    constructor
    · rfl
    · intro p q hpq
      cases p with
      | nil => simp [sumDelta_nil]
      | cons a p' =>
          cases p' with
          | nil =>
              have ha : Op.set "x" (42 : Nat) = a := by
                simpa using congrArg (fun l => l.head?) hpq
              simp [← ha, sumDelta_cons, sumDelta_nil, delta]
          | cons b p'' =>
              have hlen := congrArg List.length hpq
              simp at hlen
  refine ⟨hb, (claim_C6_rollback_undoes _ _ hb).1, ?_⟩
  rw [(claim_C6_rollback_undoes _ _ hb).1]
  rfl

/-! ### Snapshot export (claim C7) -/

theorem updateAssoc_not_mem {r : List (K × A)} {k : K}
    (h : k ∉ r.map Prod.fst) (a : A) : updateAssoc r k a = r ++ [(k, a)] := by
  induction r with
  | nil => rfl
  | cons kv rest ih =>
      obtain ⟨k', a'⟩ := kv
      have hne : k' ≠ k := fun hh => h (by simp [hh])
      have hrest : k ∉ rest.map Prod.fst := fun hh => h (by simp [hh])
      simp [updateAssoc, hne, ih hrest]

theorem lookupAssoc_of_nodup_mem {vs : List (K × A)}
    (hnd : (vs.map Prod.fst).Nodup) {kc : K × A} (h : kc ∈ vs) :
    lookupAssoc vs kc.1 = some kc.2 := by
  induction vs with
  | nil => simp at h
  | cons kv rest ih =>
      obtain ⟨a, b⟩ := kv
      rw [List.map_cons, List.nodup_cons] at hnd
      obtain ⟨hni, hrest⟩ := hnd
      rcases List.mem_cons.1 h with h' | h'
      · subst h'
        simp [lookupAssoc]
      · have hne : a ≠ kc.1 := by
          intro hh
          have hmem : kc.1 ∈ rest.map Prod.fst :=
            List.mem_map_of_mem Prod.fst h'
          exact hni (by rw [hh]; exact hmem)
        simp [lookupAssoc, hne, ih hrest h']

theorem filterMap_congr_mem {α β : Type} {l : List α} {f g : α → Option β}
    (h : ∀ x ∈ l, f x = g x) : l.filterMap f = l.filterMap g := by
  induction l with
  | nil => rfl
  | cons a t ih =>
      rw [List.filterMap_cons, List.filterMap_cons, h a (by simp),
        ih (fun x hx => h x (by simp [hx]))]

theorem resolveChainAt_none_eq_firstLE (c : List (Nat × Payload V)) (ts : Nat) :
    resolveChainAt c ts none = firstLE c.reverse ts := by
  rw [firstLE_eq_find?]
  unfold resolveChainAt
  cases hf : c.reverse.find? (fun e => e.1 ≤ ts) with
  | none => rfl
  | some e => obtain ⟨ets, p⟩ := e; cases p <;> rfl

theorem foldl_update_eq_filterMap
    (f : K × List (Nat × Payload V) → Option V)
    (g : List (K × V) → K × List (Nat × Payload V) → List (K × V))
    (hg : ∀ r kc, g r kc = (match f kc with
        | some v => updateAssoc r kc.1 v
        | none => r))
    (vs : List (K × List (Nat × Payload V))) (r : List (K × V))
    (hnd : (vs.map Prod.fst).Nodup)
    (hdisj : ∀ kc ∈ vs, kc.1 ∉ r.map Prod.fst) :
    vs.foldl g r =
      r ++ vs.filterMap (fun kc => (f kc).map (fun v => (kc.1, v))) := by
  induction vs generalizing r with
  | nil => simp
  | cons kc rest ih =>
      rw [List.map_cons, List.nodup_cons] at hnd
      obtain ⟨hni, hrest⟩ := hnd
      rw [List.foldl_cons, List.filterMap_cons, hg r kc]
      cases hf : f kc with
      | none =>
          simp only [hf]
          exact ih r hrest (fun kc' hkc' => hdisj kc' (List.mem_cons_of_mem _ hkc'))
      | some v =>
          simp only [hf]
          rw [updateAssoc_not_mem (hdisj kc (List.mem_cons_self _ _)) v]
          rw [ih (r ++ [(kc.1, v)]) hrest ?_]
          · simp [Option.map_some]
          · intro kc' hkc'
            rw [List.map_append]
            intro hmem
            rcases List.mem_append.1 hmem with hm | hm
            · exact hdisj kc' (List.mem_cons_of_mem _ hkc') hm
            · simp at hm
              have hmem' : kc'.1 ∈ rest.map Prod.fst :=
                List.mem_map_of_mem Prod.fst hkc'
              exact hni (by rw [← hm]; exact hmem')

/-- C7: `snapshot()` equals the spec's two-phase construction — committed
projection (under the innermost snapshot inside a transaction, else the
latest entries), then every open frame overlaid outermost to innermost,
tombstones removing keys — and the concrete S7 example evaluates to
`{a: 10, b: 20, c: 30}`. -/
theorem claim_C7_snapshot_semantics :
    (∀ s : Store K V, (s.versions.map Prod.fst).Nodup →
      Store.snapshot s = snapshotSpec s) ∧
    Store.snapshot (runOps (Store.load ([] : List (String × Nat)) [])
      [Op.set "a" 10, Op.set "b" 20, Op.begin, Op.set "c" 30]) =
      [("a", 10), ("b", 20), ("c", 30)] := by
  constructor
  · intro s hnd
    obtain ⟨vs, stk, snaps, c⟩ := s
    simp only at hnd
    cases stk with
    | nil =>
        simp only [Store.snapshot, snapshotSpec, committedProjection,
          List.reverse_nil, List.foldl_nil]
        rw [foldl_update_eq_filterMap
          (fun kc => match kc.2.getLast? with
            | some (_, .val v) => some v
            | _ => none) _ ?_ vs [] hnd (by simp)]
        · rw [List.nil_append]
          refine filterMap_congr_mem ?_
          intro kc _
          cases hl : kc.2.getLast? with
          | none => simp [hl]
          | some e => obtain ⟨ts, p⟩ := e; cases p <;> simp [hl]
        · intro r kc
          cases hl : kc.2.getLast? with
          | none => simp [hl]
          | some e => obtain ⟨ts, p⟩ := e; cases p <;> simp [hl]
    | cons top stk' =>
        simp only [Store.snapshot, snapshotSpec, committedProjection]
        have hbase :
            vs.foldl (fun r kc =>
              match committedAtOrBefore vs kc.1 ((snaps.headD 0)) with
              | some v => updateAssoc r kc.1 v
              | none => r) [] =
            vs.filterMap (fun kc =>
              (resolveChainAt kc.2 (snaps.headD 0) none).map
                (fun v => (kc.1, v))) := by
          rw [foldl_update_eq_filterMap
            (fun kc => committedAtOrBefore vs kc.1 (snaps.headD 0)) _
            (fun r kc => rfl) vs [] hnd (by simp)]
          rw [List.nil_append]
          refine filterMap_congr_mem ?_
          intro kc hkc
          rw [committedAtOrBefore_eq_firstLE,
            lookupAssoc_of_nodup_mem hnd hkc, resolveChainAt_none_eq_firstLE]
          rfl
        rw [hbase]
        rfl
  · decide

/-- Witness for C7 at the S7 store. -/
theorem claim_C7_witness :
    ((runOps (Store.load ([] : List (String × Nat)) [])
        [Op.set "a" 10, Op.set "b" 20, Op.begin, Op.set "c" 30]).versions.map
          Prod.fst).Nodup ∧
    Store.snapshot (runOps (Store.load ([] : List (String × Nat)) [])
        [Op.set "a" 10, Op.set "b" 20, Op.begin, Op.set "c" 30]) =
      snapshotSpec (runOps (Store.load ([] : List (String × Nat)) [])
        [Op.set "a" 10, Op.set "b" 20, Op.begin, Op.set "c" 30]) :=
  ⟨by decide, claim_C7_snapshot_semantics.1 _ (by decide)⟩

/-! ### Flush / load round trip (claim C10): association-list groundwork -/

theorem lookupAssoc_eq_none_of_not_mem {r : List (K × A)} {k : K}
    (h : k ∉ r.map Prod.fst) : lookupAssoc r k = none := by
  induction r with
  | nil => rfl
  | cons kv rest ih =>
      obtain ⟨a, b⟩ := kv
      have hne : a ≠ k := fun hh => h (by simp [hh])
      simp only [lookupAssoc, if_neg hne]
      exact ih (fun hh => h (by simp [hh]))

theorem mem_keys_of_lookupAssoc {r : List (K × A)} {k : K} {a : A}
    (h : lookupAssoc r k = some a) : k ∈ r.map Prod.fst :=
  List.mem_map_of_mem Prod.fst (mem_of_lookupAssoc h)

theorem mem_keys_updateAssoc {r : List (K × A)} {k x : K} {a : A}
    (h : x ∈ (updateAssoc r k a).map Prod.fst) :
    x ∈ r.map Prod.fst ∨ x = k := by
  induction r with
  | nil =>
      rw [show updateAssoc ([] : List (K × A)) k a = [(k, a)] from rfl,
        List.map_cons] at h
      rcases List.mem_cons.1 h with h | h
      · exact Or.inr h
      · simp at h
  | cons kv rest ih =>
      obtain ⟨k', a'⟩ := kv
      by_cases hk : k' = k
      · have he : updateAssoc ((k', a') :: rest) k a = (k, a) :: rest := by
          simp [updateAssoc, hk]
        rw [he, List.map_cons] at h
        rcases List.mem_cons.1 h with h | h
        · exact Or.inr h
        · exact Or.inl (by rw [List.map_cons]; exact List.mem_cons_of_mem _ h)
      · have he : updateAssoc ((k', a') :: rest) k a =
            (k', a') :: updateAssoc rest k a := by
          simp [updateAssoc, hk]
        rw [he, List.map_cons] at h
        rcases List.mem_cons.1 h with h | h
        · exact Or.inl (by rw [List.map_cons]; exact List.mem_cons.2 (Or.inl h))
        · rcases ih h with h' | h'
          · exact Or.inl (by rw [List.map_cons]; exact List.mem_cons_of_mem _ h')
          · exact Or.inr h'

theorem nodup_keys_updateAssoc {r : List (K × A)}
    (hnd : (r.map Prod.fst).Nodup) (k : K) (a : A) :
    ((updateAssoc r k a).map Prod.fst).Nodup := by
  induction r with
  | nil => simp [updateAssoc]
  | cons kv rest ih =>
      obtain ⟨k', a'⟩ := kv
      rw [List.map_cons, List.nodup_cons] at hnd
      obtain ⟨hni, hrest⟩ := hnd
      by_cases hk : k' = k
      · have he : updateAssoc ((k', a') :: rest) k a = (k, a) :: rest := by
          simp [updateAssoc, hk]
        rw [he, List.map_cons, List.nodup_cons]
        exact ⟨hk ▸ hni, hrest⟩
      · have he : updateAssoc ((k', a') :: rest) k a =
            (k', a') :: updateAssoc rest k a := by
          simp [updateAssoc, hk]
        rw [he, List.map_cons, List.nodup_cons]
        refine ⟨?_, ih hrest⟩
        intro hm
        rcases mem_keys_updateAssoc hm with h' | h'
        · exact hni h'
        · exact hk h'

theorem mem_keys_eraseAssoc {r : List (K × A)} {k x : K}
    (h : x ∈ (eraseAssoc r k).map Prod.fst) : x ∈ r.map Prod.fst := by
  induction r with
  | nil => simpa [eraseAssoc] using h
  | cons kv rest ih =>
      obtain ⟨k', a'⟩ := kv
      by_cases hk : k' = k
      · have he : eraseAssoc ((k', a') :: rest) k = rest := by
          simp [eraseAssoc, hk]
        rw [he] at h
        rw [List.map_cons]
        exact List.mem_cons_of_mem _ h
      · have he : eraseAssoc ((k', a') :: rest) k =
            (k', a') :: eraseAssoc rest k := by
          simp [eraseAssoc, hk]
        rw [he, List.map_cons] at h
        rw [List.map_cons]
        rcases List.mem_cons.1 h with h | h
        · exact List.mem_cons.2 (Or.inl h)
        · exact List.mem_cons_of_mem _ (ih h)

theorem nodup_keys_eraseAssoc {r : List (K × A)}
    (hnd : (r.map Prod.fst).Nodup) (k : K) :
    ((eraseAssoc r k).map Prod.fst).Nodup := by
  induction r with
  | nil => simp [eraseAssoc]
  | cons kv rest ih =>
      obtain ⟨k', a'⟩ := kv
      rw [List.map_cons, List.nodup_cons] at hnd
      obtain ⟨hni, hrest⟩ := hnd
      by_cases hk : k' = k
      · have he : eraseAssoc ((k', a') :: rest) k = rest := by
          simp [eraseAssoc, hk]
        rw [he]
        exact hrest
      · have he : eraseAssoc ((k', a') :: rest) k =
            (k', a') :: eraseAssoc rest k := by
          simp [eraseAssoc, hk]
        rw [he, List.map_cons, List.nodup_cons]
        exact ⟨fun hm => hni (mem_keys_eraseAssoc hm), ih hrest⟩

theorem lookupAssoc_eraseAssoc_self {r : List (K × A)}
    (hnd : (r.map Prod.fst).Nodup) (k : K) :
    lookupAssoc (eraseAssoc r k) k = none := by
  induction r with
  | nil => rfl
  | cons kv rest ih =>
      obtain ⟨k', a'⟩ := kv
      rw [List.map_cons, List.nodup_cons] at hnd
      obtain ⟨hni, hrest⟩ := hnd
      by_cases hk : k' = k
      · have he : eraseAssoc ((k', a') :: rest) k = rest := by
          simp [eraseAssoc, hk]
        rw [he]
        exact lookupAssoc_eq_none_of_not_mem (hk ▸ hni)
      · have he : eraseAssoc ((k', a') :: rest) k =
            (k', a') :: eraseAssoc rest k := by
          simp [eraseAssoc, hk]
        rw [he]
        simp only [lookupAssoc, if_neg hk]
        exact ih hrest

theorem lookupAssoc_eraseAssoc_ne {r : List (K × A)} {k k' : K}
    (h : k' ≠ k) : lookupAssoc (eraseAssoc r k) k' = lookupAssoc r k' := by
  induction r with
  | nil => rfl
  | cons kv rest ih =>
      obtain ⟨a, b⟩ := kv
      by_cases hk : a = k
      · have he : eraseAssoc ((a, b) :: rest) k = rest := by
          simp [eraseAssoc, hk]
        rw [he]
        have hne : a ≠ k' := fun hh => h (hh ▸ hk)
        simp only [lookupAssoc, if_neg hne]
      · have he : eraseAssoc ((a, b) :: rest) k =
            (a, b) :: eraseAssoc rest k := by
          simp [eraseAssoc, hk]
        rw [he]
        by_cases ha : a = k'
        · simp only [lookupAssoc, if_pos ha]
        · simp only [lookupAssoc, if_neg ha]
          exact ih

theorem mem_keys_appendVersion {vs : List (K × List (Nat × Payload V))}
    {k x : K} {e : Nat × Payload V}
    (h : x ∈ (appendVersion vs k e).map Prod.fst) :
    x ∈ vs.map Prod.fst ∨ x = k := by
  induction vs with
  | nil =>
      rw [show appendVersion ([] : List (K × List (Nat × Payload V))) k e =
        [(k, [e])] from rfl, List.map_cons] at h
      rcases List.mem_cons.1 h with h | h
      · exact Or.inr h
      · simp at h
  | cons kv rest ih =>
      obtain ⟨k', c⟩ := kv
      by_cases hk : k' = k
      · have he : appendVersion ((k', c) :: rest) k e = (k', c ++ [e]) :: rest := by
          simp [appendVersion, hk]
        rw [he, List.map_cons] at h
        rw [List.map_cons]
        rcases List.mem_cons.1 h with h | h
        · exact Or.inl (List.mem_cons.2 (Or.inl h))
        · exact Or.inl (List.mem_cons_of_mem _ h)
      · have he : appendVersion ((k', c) :: rest) k e =
            (k', c) :: appendVersion rest k e := by
          simp [appendVersion, hk]
        rw [he, List.map_cons] at h
        rcases List.mem_cons.1 h with h | h
        · exact Or.inl (by rw [List.map_cons]; exact List.mem_cons.2 (Or.inl h))
        · rcases ih h with h' | h'
          · exact Or.inl (by rw [List.map_cons]; exact List.mem_cons_of_mem _ h')
          · exact Or.inr h'

theorem nodup_keys_appendVersion {vs : List (K × List (Nat × Payload V))}
    (hnd : (vs.map Prod.fst).Nodup) (k : K) (e : Nat × Payload V) :
    ((appendVersion vs k e).map Prod.fst).Nodup := by
  induction vs with
  | nil => simp [appendVersion]
  | cons kv rest ih =>
      obtain ⟨k', c⟩ := kv
      rw [List.map_cons, List.nodup_cons] at hnd
      obtain ⟨hni, hrest⟩ := hnd
      by_cases hk : k' = k
      · have he : appendVersion ((k', c) :: rest) k e = (k', c ++ [e]) :: rest := by
          simp [appendVersion, hk]
        rw [he, List.map_cons, List.nodup_cons]
        exact ⟨hni, hrest⟩
      · have he : appendVersion ((k', c) :: rest) k e =
            (k', c) :: appendVersion rest k e := by
          simp [appendVersion, hk]
        rw [he, List.map_cons, List.nodup_cons]
        refine ⟨?_, ih hrest⟩
        intro hm
        rcases mem_keys_appendVersion hm with h' | h'
        · exact hni h'
        · exact hk h'

theorem nodup_keys_appendAll : ∀ (top : List (K × Payload V)) (s : Store K V),
    (s.versions.map Prod.fst).Nodup →
    ((Store.appendAll s top).versions.map Prod.fst).Nodup := by
  intro top
  induction top with
  | nil => intro s h; exact h
  | cons kv rest ih =>
      intro s h
      exact ih (Store.appendOne s kv.1 kv.2) (nodup_keys_appendVersion h _ _)

/-! ### Flush / load round trip (claim C10): main lemmas -/

theorem lookupAssoc_flush : ∀ (vs : List (K × List (Nat × Payload V)))
    (m : List (K × V)), (vs.map Prod.fst).Nodup → (m.map Prod.fst).Nodup →
    (∀ kc ∈ vs, kc.2 ≠ []) → ∀ k : K,
    lookupAssoc (Store.flush ⟨vs, [], [], 0⟩ m) k =
      (match latestCommitted vs k with
       | some (_, .val v) => some v
       | some (_, .tomb) => none
       | none => lookupAssoc m k) := by
  intro vs
  induction vs with
  | nil => intro m _ _ _ k; rfl
  | cons kc rest ih =>
      intro m hndv hndm hne k
      obtain ⟨a, chain⟩ := kc
      rw [List.map_cons, List.nodup_cons] at hndv
      obtain ⟨hni, hrest⟩ := hndv
      have hchain_ne : chain ≠ [] := hne (a, chain) (List.mem_cons_self _ _)
      obtain ⟨e, hl⟩ : ∃ e, chain.getLast? = some e :=
        ⟨chain.getLast hchain_ne, List.getLast?_eq_getLast chain hchain_ne⟩
      obtain ⟨ts, p⟩ := e
      have hner : ∀ kc ∈ rest, kc.2 ≠ [] :=
        fun kc hkc => hne kc (List.mem_cons_of_mem _ hkc)
      have hlc : latestCommitted ((a, chain) :: rest) k =
          (if a = k then some (ts, p) else latestCommitted rest k) := by
        unfold latestCommitted
        by_cases hk : a = k <;> simp [lookupAssoc, hk, hl]
      rw [hlc]
      have hrnone : lookupAssoc rest a = none :=
        lookupAssoc_eq_none_of_not_mem hni
      cases p with
      | tomb =>
          have hstep : Store.flush ⟨(a, chain) :: rest, [], [], 0⟩ m =
              Store.flush ⟨rest, [], [], 0⟩ (eraseAssoc m a) := by
            simp only [Store.flush, List.foldl_cons, hl]
          rw [hstep,
            ih (eraseAssoc m a) hrest (nodup_keys_eraseAssoc hndm a) hner k]
          by_cases hk : a = k
          · subst hk
            have hr : latestCommitted rest a = none := by
              unfold latestCommitted
              rw [hrnone]
            rw [hr, if_pos rfl]
            exact lookupAssoc_eraseAssoc_self hndm a
          · rw [if_neg hk]
            cases hrc : latestCommitted rest k with
            | none => exact lookupAssoc_eraseAssoc_ne (fun hh => hk hh.symm)
            | some e' =>
                obtain ⟨ts', p'⟩ := e'
                cases p' <;> rfl
      | val v =>
          have hstep : Store.flush ⟨(a, chain) :: rest, [], [], 0⟩ m =
              Store.flush ⟨rest, [], [], 0⟩ (updateAssoc m a v) := by
            simp only [Store.flush, List.foldl_cons, hl]
          rw [hstep,
            ih (updateAssoc m a v) hrest (nodup_keys_updateAssoc hndm a v) hner k]
          by_cases hk : a = k
          · subst hk
            have hr : latestCommitted rest a = none := by
              unfold latestCommitted
              rw [hrnone]
            rw [hr, if_pos rfl]
            exact lookupAssoc_updateAssoc_self m a v
          · rw [if_neg hk]
            cases hrc : latestCommitted rest k with
            | none => exact lookupAssoc_updateAssoc_ne m v (fun hh => hk hh.symm)
            | some e' =>
                obtain ⟨ts', p'⟩ := e'
                cases p' <;> rfl

theorem nodup_keys_flush : ∀ (vs : List (K × List (Nat × Payload V)))
    (m : List (K × V)), (m.map Prod.fst).Nodup →
    ((Store.flush ⟨vs, [], [], 0⟩ m).map Prod.fst).Nodup := by
  intro vs
  induction vs with
  | nil => intro m h; exact h
  | cons kc rest ih =>
      intro m h
      obtain ⟨a, chain⟩ := kc
      cases hl : chain.getLast? with
      | none =>
          have hstep : Store.flush ⟨(a, chain) :: rest, [], [], 0⟩ m =
              Store.flush ⟨rest, [], [], 0⟩ m := by
            simp only [Store.flush, List.foldl_cons, hl]
          rw [hstep]
          exact ih m h
      | some e =>
          obtain ⟨ts, p⟩ := e
          cases p with
          | tomb =>
              have hstep : Store.flush ⟨(a, chain) :: rest, [], [], 0⟩ m =
                  Store.flush ⟨rest, [], [], 0⟩ (eraseAssoc m a) := by
                simp only [Store.flush, List.foldl_cons, hl]
              rw [hstep]
              exact ih _ (nodup_keys_eraseAssoc h a)
          | val v =>
              have hstep : Store.flush ⟨(a, chain) :: rest, [], [], 0⟩ m =
                  Store.flush ⟨rest, [], [], 0⟩ (updateAssoc m a v) := by
                simp only [Store.flush, List.foldl_cons, hl]
              rw [hstep]
              exact ih _ (nodup_keys_updateAssoc h a v)

theorem lookupAssoc_filterMap : ∀ (vs : List (K × List (Nat × Payload V)))
    (f : K × List (Nat × Payload V) → Option V),
    (vs.map Prod.fst).Nodup → ∀ k : K,
    lookupAssoc (vs.filterMap (fun kc => (f kc).map (fun v => (kc.1, v)))) k =
      (match lookupAssoc vs k with
       | some chain => f (k, chain)
       | none => none) := by
  intro vs
  induction vs with
  | nil => intro f _ k; rfl
  | cons kc rest ih =>
      intro f hnd k
      obtain ⟨a, chain⟩ := kc
      rw [List.map_cons, List.nodup_cons] at hnd
      obtain ⟨hni, hrest⟩ := hnd
      rw [List.filterMap_cons]
      by_cases hk : a = k
      · subst hk
        have hr : (match lookupAssoc ((a, chain) :: rest) a with
            | some chain => f (a, chain)
            | none => none) = f (a, chain) := by
          have hlk : lookupAssoc ((a, chain) :: rest) a = some chain := by
            simp [lookupAssoc]
          rw [hlk]
        rw [hr]
        cases hf : f (a, chain) with
        | none =>
            simp only [hf, Option.map_none']
            rw [ih f hrest a, lookupAssoc_eq_none_of_not_mem hni]
        | some v =>
            simp only [hf, Option.map_some']
            simp [lookupAssoc]
      · have hr : (match lookupAssoc ((a, chain) :: rest) k with
            | some chain => f (k, chain)
            | none => none) =
            (match lookupAssoc rest k with
             | some chain => f (k, chain)
             | none => none) := by
          have hlk : lookupAssoc ((a, chain) :: rest) k = lookupAssoc rest k := by
            simp only [lookupAssoc, if_neg hk]
          rw [hlk]
        rw [hr]
        cases hf : f (a, chain) with
        | none =>
            simp only [hf, Option.map_none']
            exact ih f hrest k
        | some v =>
            simp only [hf, Option.map_some']
            simp only [lookupAssoc, if_neg hk]
            exact ih f hrest k

theorem lookupAssoc_snapshot_empty (s : Store K V) (hstk : s.tx_stack = [])
    (hnd : (s.versions.map Prod.fst).Nodup) (k : K) :
    lookupAssoc (Store.snapshot s) k = latestValue s.versions k := by
  obtain ⟨vs, stk, snaps, c⟩ := s
  simp only at hstk hnd
  subst hstk
  simp only [Store.snapshot, List.reverse_nil, List.foldl_nil]
  rw [foldl_update_eq_filterMap
    (fun kc => match kc.2.getLast? with
      | some (_, .val v) => some v
      | _ => none) _ ?_ vs [] hnd (by simp)]
  · rw [List.nil_append, lookupAssoc_filterMap vs _ hnd k]
    unfold latestValue latestCommitted
    cases lookupAssoc vs k with
    | none => rfl
    | some chain =>
        cases chain.getLast? with
        | none => rfl
        | some e =>
            obtain ⟨ts, p⟩ := e
            cases p <;> rfl
  · intro r kc
    cases hl : kc.2.getLast? with
    | none => simp [hl]
    | some e => obtain ⟨ts, p⟩ := e; cases p <;> simp [hl]

theorem latestValue_loadFold : ∀ (rows : List (K × V)) (s : Store K V),
    (rows.map Prod.fst).Nodup → ∀ k : K,
    latestValue
      (rows.foldl (fun st kv => Store.appendOne st kv.1 (.val kv.2)) s).versions
      k =
      (match lookupAssoc rows k with
       | some v => some v
       | none => latestValue s.versions k) := by
  intro rows
  induction rows with
  | nil => intro s _ k; rfl
  | cons kv rest ih =>
      intro s hnd k
      obtain ⟨a, b⟩ := kv
      rw [List.map_cons, List.nodup_cons] at hnd
      obtain ⟨hni, hrest⟩ := hnd
      rw [List.foldl_cons, ih (Store.appendOne s a (.val b)) hrest k]
      by_cases hk : a = k
      · subst hk
        have h1 : lookupAssoc rest a = none := lookupAssoc_eq_none_of_not_mem hni
        have h2 : lookupAssoc ((a, b) :: rest) a = some b := by
          simp [lookupAssoc]
        rw [h1, h2]
        unfold latestValue latestCommitted
        rw [show (Store.appendOne s a (.val b)).versions =
          appendVersion s.versions a (s.clock + 1, .val b) from rfl]
        rw [lookupAssoc_appendVersion_self]
        simp
      · have h2 : lookupAssoc ((a, b) :: rest) k = lookupAssoc rest k := by
          simp only [lookupAssoc, if_neg hk]
        rw [h2]
        cases hrc : lookupAssoc rest k with
        | some v => rfl
        | none =>
            unfold latestValue latestCommitted
            rw [show (Store.appendOne s a (.val b)).versions =
              appendVersion s.versions a (s.clock + 1, .val b) from rfl]
            rw [lookupAssoc_appendVersion_ne _ _ (Ne.symm hk)]

/-- C10: with no open transaction and every mirror key backed by a version
chain, flushing makes the mirror's contents (as a key-value map) equal to
`snapshot()` — latest non-tombstone payloads upserted, tombstoned keys
deleted — and a new engine constructed over the flushed mirror has a
`snapshot()` equal to the pre-close one, preserving exactly the
non-tombstone keys. -/
theorem claim_C10_flush_load_round_trip (s : Store K V) (m : List (K × V))
    (hstk : s.tx_stack = [])
    (hndv : (s.versions.map Prod.fst).Nodup)
    (hndm : (m.map Prod.fst).Nodup)
    (hne : ∀ kc ∈ s.versions, kc.2 ≠ [])
    (hsub : ∀ x ∈ m.map Prod.fst, x ∈ s.versions.map Prod.fst) :
    (∀ k, lookupAssoc (Store.flush s m) k = lookupAssoc (Store.snapshot s) k) ∧
    (∀ k, lookupAssoc (Store.snapshot (Store.load (Store.flush s m) [])) k =
      lookupAssoc (Store.snapshot s) k) := by
  have hflush : ∀ k, lookupAssoc (Store.flush s m) k = latestValue s.versions k := by
    intro k
    have hbridge : Store.flush s m = Store.flush ⟨s.versions, [], [], 0⟩ m := rfl
    rw [hbridge, lookupAssoc_flush s.versions m hndv hndm hne k]
    unfold latestValue
    cases hlc : latestCommitted s.versions k with
    | some e =>
        obtain ⟨ts, p⟩ := e
        cases p <;> rfl
    | none =>
        have hmnone : lookupAssoc m k = none := by
          cases hm : lookupAssoc m k with
          | none => rfl
          | some v =>
              exfalso
              have hkm : k ∈ s.versions.map Prod.fst :=
                hsub k (mem_keys_of_lookupAssoc hm)
              obtain ⟨⟨k', chain⟩, hmem, hfst⟩ := List.mem_map.1 hkm
              simp only at hfst
              subst hfst
              have hlkv : lookupAssoc s.versions k' = some chain :=
                lookupAssoc_of_nodup_mem hndv hmem
              have hchain_ne : chain ≠ [] := hne (k', chain) hmem
              obtain ⟨e, hl⟩ : ∃ e, chain.getLast? = some e :=
                ⟨chain.getLast hchain_ne,
                  List.getLast?_eq_getLast chain hchain_ne⟩
              unfold latestCommitted at hlc
              rw [hlkv] at hlc
              have hlc' : chain.getLast? = none := hlc
              rw [hl] at hlc'
              exact Option.noConfusion hlc'
        rw [hmnone]
  have hsnap : ∀ k, lookupAssoc (Store.snapshot s) k = latestValue s.versions k :=
    fun k => lookupAssoc_snapshot_empty s hstk hndv k
  have hpart1 : ∀ k,
      lookupAssoc (Store.flush s m) k = lookupAssoc (Store.snapshot s) k :=
    fun k => (hflush k).trans (hsnap k).symm
  refine ⟨hpart1, ?_⟩
  intro k
  have hndm' : ((Store.flush s m).map Prod.fst).Nodup := by
    rw [show Store.flush s m = Store.flush ⟨s.versions, [], [], 0⟩ m from rfl]
    exact nodup_keys_flush s.versions m hndm
  have hload_eq : Store.load (Store.flush s m) [] =
      (Store.flush s m).foldl
        (fun st kv => Store.appendOne st kv.1 (.val kv.2))
        (⟨[], [], [], 0⟩ : Store K V) := rfl
  have hload_stk : (Store.load (Store.flush s m) ([] : List (K × V))).tx_stack = [] := by
    rw [load_eq_appendAll, appendAll_tx_stack, appendAll_tx_stack]
  have hload_nd :
      ((Store.load (Store.flush s m) ([] : List (K × V))).versions.map Prod.fst).Nodup := by
    rw [load_eq_appendAll]
    refine nodup_keys_appendAll _ _ (nodup_keys_appendAll _ _ ?_)
    simp
  rw [lookupAssoc_snapshot_empty _ hload_stk hload_nd k, hload_eq,
    latestValue_loadFold (Store.flush s m) ⟨[], [], [], 0⟩ hndm' k]
  rw [← hpart1 k]
  cases lookupAssoc (Store.flush s m) k with
  | none => rfl
  | some v => rfl

/-- Witness for C10: a store loaded from a mirror, mutated with a set and a
delete, then flushed and reloaded. -/
theorem claim_C10_witness :
    ((runOps (Store.load [("x", (5 : Nat))] []) [Op.set "k1" 7, Op.del "x"]).tx_stack
        = [] ∧
      lookupAssoc (Store.flush
        (runOps (Store.load [("x", (5 : Nat))] []) [Op.set "k1" 7, Op.del "x"])
        [("x", 5)]) "x" =
      lookupAssoc (Store.snapshot
        (runOps (Store.load [("x", (5 : Nat))] []) [Op.set "k1" 7, Op.del "x"])) "x") ∧
    lookupAssoc (Store.snapshot (Store.load (Store.flush
        (runOps (Store.load [("x", (5 : Nat))] []) [Op.set "k1" 7, Op.del "x"])
        [("x", 5)]) [])) "k1" =
      lookupAssoc (Store.snapshot
        (runOps (Store.load [("x", (5 : Nat))] []) [Op.set "k1" 7, Op.del "x"])) "k1" :=
  ⟨⟨by decide,
    (claim_C10_flush_load_round_trip _ [("x", 5)] (by decide) (by decide)
      (by decide) (by decide) (by decide)).1 "x"⟩,
    (claim_C10_flush_load_round_trip _ [("x", 5)] (by decide) (by decide)
      (by decide) (by decide) (by decide)).2 "k1"⟩

end KVStore
